import Mathlib

/-!
Verification of the starting-approximation and cluster-restart engine
(`starting.c` of MPSolve): shallow embedding of `mps_gcd`,
`mps_maximize_distance`, the per-tier starting-radii clamping, the
radii compaction pass, the placement index loops of `mps_fstart` /
`mps_dstart` / `mps_mstart`, the cluster-output test, the
Newton-isolation test of `mps_frestart` / `mps_drestart`, the
cluster-loop control flow of the restart controllers, and the Horner
deflation of `mps_fshift`.

Numeric conventions of the embedding: machine doubles and DPE values
are modelled as exact rationals (or reals where the C code applies
`exp`); the C `%` on `int` is `Int.tmod` (truncated division);
arrays are total functions out of `ℕ` so that stale entries beyond
the live length are observable, exactly as in the C arrays.
-/

/-- One iteration of the do-while loop of `mps_gcd` (starting.c lines
35-43): `temp = b; b = a % b; a = temp;` repeated while `b != 0`.
The fuel counts remaining loop iterations; `none` models either fuel
exhaustion or the division by zero that `a % b` performs when `b = 0`
on entry to an iteration. -/
def mps_gcd_iter : ℕ → ℤ → ℤ → Option ℤ
  | 0, _, _ => none
  | fuel+1, a, b =>
    if b = 0 then none
    else
      let a2 := b
      let b2 := Int.tmod a b
      if b2 = 0 then some a2 else mps_gcd_iter fuel a2 b2

/-- The function `mps_gcd` of starting.c: the truncated-division
Euclid loop, with enough fuel (`|b|` strictly decreases at every
iteration, so `b.natAbs` iterations always suffice when `b ≠ 0`). -/
def mps_gcd (a b : ℤ) : Option ℤ :=
  mps_gcd_iter b.natAbs a b

/-- The function `mps_maximize_distance` of starting.c (lines 59-74):
`old_clust_n = punt[i_cluster] - punt[i_cluster-1]` and the returned
(and stored) value is `last_sigma + PI*(old_clust_n*gcd(old_clust_n,n))/(4*n)`.
The field `K` is `ℝ` with `PI = Real.pi` in the claims; keeping the
constant abstract keeps the definition polymorphic. -/
def mps_maximize_distance (K : Type) [Field K] (PI : K) (punt : ℕ → ℤ)
    (last_sigma : K) (i_cluster : ℕ) (n : ℕ) : Option K :=
  let old_clust_n : ℤ := punt i_cluster - punt (i_cluster - 1)
  (mps_gcd old_clust_n n).map (fun d =>
    last_sigma + PI * ((old_clust_n * d : ℤ) : K) / ((4 * n : ℕ) : K))

/-- The cluster registry boundary array `punt` determined by a list of
cluster sizes: `punt[i]` is the sum of the first `i` sizes. -/
def puntOf (sizes : List ℕ) (i : ℕ) : ℤ :=
  ((sizes.take i).sum : ℤ)

/-- State of `last_sigma` after the placers have handled the first `k`
clusters with `random_seed` false, following the selection code shared
by `mps_fstart`, `mps_dstart` and `mps_mstart` (e.g. lines 240-250):
cluster 0 stores `last_sigma = 0`, and every later cluster `i` stores
the value returned by `mps_maximize_distance` called with the current
cluster size `sizes[i]`.  Index 0 is the initial (unused) state. -/
def lastSigmaAfter (K : Type) [Field K] (PI : K) (sizes : List ℕ) : ℕ → Option K
  | 0 => some 0
  | k+1 =>
    if k = 0 then some 0
    else (lastSigmaAfter K PI sizes k).bind (fun ls =>
      mps_maximize_distance K PI (puntOf sizes) ls k (sizes.getD k 0))

/-- The radius computation for one hull vertex in
`mps_fcompute_starting_radii` (starting.c lines 140-158): three
sequential non-exclusive `if`s on `temp` (the log of the radius) with
`r` carried over from the previous vertex when no branch fires,
followed by the cluster-radius clamp guarded by `clust_rad != 0`.
`expF` stands for the C `exp`. -/
def mps_fstarting_radius (K : Type) [LinearOrderedField K] (expF : K → K)
    (xsmall xbig small big clust_rad r0 temp : K) : K :=
  let r1 := if temp < xsmall then small else r0
  let r2 := if temp > xbig then big else r1
  let r3 := if temp ≤ xbig ∧ temp > xsmall then expF temp else r2
  if clust_rad ≠ 0 ∧ r3 > clust_rad then clust_rad else r3

/-- The radius computation for one hull vertex in
`mps_dcompute_starting_radii` (starting.c lines 374-393), kept exactly
as written: the middle branch tests `temp < xbig` (not `temp > xbig`)
and stores `RDPE_MAX`, and the third `if` guards only
`rdpe_set_d(r, temp)` while `rdpe_exp_eq(r)` runs unconditionally, so
the stored value is `exp` of whatever `r` holds. -/
def mps_dstarting_radius (K : Type) [LinearOrderedField K] (expF : K → K)
    (xsmall xbig small big clust_rad r0 temp : K) : K :=
  let r1 := if temp < xsmall then small else r0
  let r2 := if temp < xbig then big else r1
  let r3 := if temp < xbig ∧ temp > xsmall then temp else r2
  let r4 := expF r3
  if clust_rad ≠ 0 ∧ r4 > clust_rad then clust_rad else r4

/-- The radius computation for one hull vertex in
`mps_mcompute_starting_radii` (starting.c lines 605-633): branches on
`temp < xsmall`, `temp > xbig`, `xsmall ≤ temp ≤ xbig`, then the
cluster-radius clamp without any `clust_rad ≠ 0` guard. -/
def mps_mstarting_radius (K : Type) [LinearOrderedField K] (expF : K → K)
    (xsmall xbig small big clust_rad r0 temp : K) : K :=
  let r1 := if temp < xsmall then small else r0
  let r2 := if temp > xbig then big else r1
  let r3 := if temp ≤ xbig ∧ temp ≥ xsmall then expF temp else r2
  if r3 > clust_rad then clust_rad else r3

/-- State of the radii builder during compaction: the `radii` and
`partitioning` arrays are total functions (entries above the live
range keep their stale values, as in C), `nRadii` is `s->n_radii`. -/
structure RadiiState where
  radii : ℕ → ℚ
  part : ℕ → ℕ
  nRadii : ℕ

/-- Inner scan of the compaction pass (e.g. starting.c lines 171-175):
starting from `j` with `cnt` slots left before `n_radii`, return the
first `j` whose relative distance to radius `i` exceeds
`circle_relative_distance`, or `n_radii` when the scan runs out. -/
def findJAux (radii : ℕ → ℚ) (delta : ℚ) (i : ℕ) : ℕ → ℕ → ℕ
  | j, 0 => j
  | j, cnt+1 =>
    if (radii j - radii i) / radii i > delta then j
    else findJAux radii delta i (j+1) cnt

/-- The value of `j` after the inner scan `for (j = i+1; j < n_radii; j++)`
with its `break`. -/
def findJ (radii : ℕ → ℚ) (delta : ℚ) (nRadii i : ℕ) : ℕ :=
  findJAux radii delta i (i+1) (nRadii - (i+1))

/-- Accumulation loop of `mps_fcompute_starting_radii` (lines 188-190):
`for (k = i+1; k < j; k++) fradii[i] += fradii[k];` starting from
`fradii[i]`. -/
def fCompactAcc (radii : ℕ → ℚ) (i j : ℕ) : ℚ :=
  ((List.range' (i+1) (j - (i+1))).map (fun k => radii k)).sum + radii i

/-- Accumulation loop of `mps_dcompute_starting_radii` (lines 419-421)
and `mps_mcompute_starting_radii` (lines 666-668), kept exactly as
written: the body is `rdpe_add_eq(s->dradii[i], s->dradii[j]);`, i.e.
it adds `dradii[j]` (`j` fixed) instead of `dradii[k]`. -/
def dCompactAcc (radii : ℕ → ℚ) (i j : ℕ) : ℚ :=
  ((List.range' (i+1) (j - (i+1))).map (fun _ => radii j)).sum + radii i

/-- The backward-move loop of the compaction pass (e.g. lines 195-198):
`for (k = j; k < n_radii; k++) arr[k - offset + 1] = arr[k];`,
executed sequentially left to right, as in C. -/
def shiftLeft (A : Type) (f : ℕ → A) (j offset nRadii : ℕ) : ℕ → A :=
  (List.range' j (nRadii - j)).foldl
    (fun acc k => Function.update acc (k - offset + 1) (acc k)) f

/-- One iteration of the outer compaction loop at index `i`
(e.g. starting.c lines 168-202), parametrised by the accumulation
loop `acc` (`fCompactAcc` for the double tier, `dCompactAcc` for the
DPE and multiprecision tiers): find `j`, average, move the upper slot
boundary `partitioning[j]` into `partitioning[i+1]`, move the later
circles backward, shrink `n_radii`. -/
def compactStep (acc : (ℕ → ℚ) → ℕ → ℕ → ℚ) (delta : ℚ)
    (st : RadiiState) (i : ℕ) : RadiiState :=
  let j := findJ st.radii delta st.nRadii i
  let offset := j - i
  let radii1 := Function.update st.radii i (acc st.radii i j / (offset : ℚ))
  let part1 := Function.update st.part (i+1) (st.part j)
  let radii2 := shiftLeft ℚ radii1 j offset st.nRadii
  let part2 := shiftLeft ℕ part1 j offset st.nRadii
  ⟨radii2, part2, st.nRadii - offset + 1⟩

/-- The outer compaction loop `for (i = 0; i < n_radii; i++)` with
`n_radii` shrinking as circles merge; the fuel bounds the number of
iterations (the initial `n_radii` always suffices, since `i` grows by
one per iteration and `n_radii` never grows). -/
def compactLoop (acc : (ℕ → ℚ) → ℕ → ℕ → ℚ) (delta : ℚ) :
    ℕ → RadiiState → ℕ → RadiiState
  | 0, st, _ => st
  | fuel+1, st, i =>
    if i < st.nRadii then compactLoop acc delta fuel (compactStep acc delta st i) (i+1)
    else st

/-- The complete compaction pass of `mps_fcompute_starting_radii`
(starting.c lines 167-202). -/
def mps_fcompact (delta : ℚ) (st : RadiiState) : RadiiState :=
  compactLoop fCompactAcc delta st.nRadii st 0

/-- The complete compaction pass of `mps_dcompute_starting_radii`
(starting.c lines 402-434); `mps_mcompute_starting_radii`
(lines 643-681) is identical. -/
def mps_dcompact (delta : ℚ) (st : RadiiState) : RadiiState :=
  compactLoop dCompactAcc delta st.nRadii st 0

/-- The sequence of slot indices `j` visited by the placement loops of
`mps_fstart` (starting.c lines 269-289): for each annulus
`i < n_radii`, `j` runs over `[partitioning[i], partitioning[i+1])`.
`mps_mstart` (lines 725-746) visits the same slots. -/
def fstartSlots (part : ℕ → ℕ) (nRadii : ℕ) : List ℕ :=
  (List.range nRadii).flatMap (fun i => List.range' (part i) (part (i+1) - part i))

/-- The sequence of slot indices `j` visited by the placement loop of
`mps_dstart` (starting.c lines 500-539), kept exactly as written: the
outer loop runs over hull vertices `i = 1..n` with `h[i]` set, reads
`iold = partitioning[i]` (indexing `partitioning` by the hull vertex,
not by the annulus ordinal), and the inner loop is
`for (j = iold; j < i; j++)`. -/
def dstartSlots (hmask : ℕ → Bool) (part : ℕ → ℕ) (n : ℕ) : List ℕ :=
  (List.range' 1 n).flatMap (fun i =>
    if hmask i then List.range' (part i) (i - part i) else [])

/-- The marking loop shared by the cluster-output tests: for
`j = 0 .. count-1`, set `status[clust[punt0+j]][0] = 'o'` and store
`val` as the inclusion radius of that root. -/
def markLoop (clust : ℕ → ℕ) (punt0 : ℕ) (val : ℚ) (count : ℕ)
    (status : ℕ → Char) (rad : ℕ → ℚ) : (ℕ → Char) × (ℕ → ℚ) :=
  (List.range count).foldl
    (fun st j =>
      let l := clust (punt0 + j)
      (Function.update st.1 l 'o', Function.update st.2 l (val)))
    (status, rad)

/-- The cluster-output test of `mps_fstart` (starting.c lines 292-302):
if `g ≠ 0` and `r*nzeros ≤ eps*g`, mark the `csize` roots of the
cluster with status `'o'` and inclusion radius `r*nzeros`. -/
def mps_fstart_output_test (g eps r : ℚ) (nzeros csize : ℕ)
    (clust : ℕ → ℕ) (punt0 : ℕ) (status : ℕ → Char) (rad : ℕ → ℚ) :
    (ℕ → Char) × (ℕ → ℚ) :=
  if g ≠ 0 ∧ r * (nzeros : ℚ) ≤ eps * g then
    markLoop clust punt0 (r * (nzeros : ℚ)) csize status rad
  else (status, rad)

/-- The cluster-output test of `mps_dstart` (starting.c lines 542-553),
kept exactly as written: the comparison is the strict `rdpe_lt` and
the marking loop runs `for (j = 0; j <= punt[i+1]-punt[i]; j++)`,
i.e. over `csize + 1` values of `j`. -/
def mps_dstart_output_test (g eps r : ℚ) (nzeros csize : ℕ)
    (clust : ℕ → ℕ) (punt0 : ℕ) (status : ℕ → Char) (rad : ℕ → ℚ) :
    (ℕ → Char) × (ℕ → ℚ) :=
  if g ≠ 0 ∧ r * (nzeros : ℚ) < eps * g then
    markLoop clust punt0 (r * (nzeros : ℚ)) (csize + 1) status rad
  else (status, rad)

/-- The cluster-output test of `mps_mstart` (starting.c lines 750-762),
kept exactly as written: the comparison `dradii[i]*nzeros ≤ g*eps_out`
has no `g ≠ 0` guard, and the stored radius is
`rdpe_mul_d(drad[l], r, nzeros)` where the local `r` is never assigned
anywhere in `mps_mstart`; `rUninit` models that indeterminate value. -/
def mps_mstart_output_test (g eps r rUninit : ℚ) (nzeros csize : ℕ)
    (clust : ℕ → ℕ) (punt0 : ℕ) (status : ℕ → Char) (rad : ℕ → ℚ) :
    (ℕ → Char) × (ℕ → ℚ) :=
  if r * (nzeros : ℚ) ≤ g * eps then
    markLoop clust punt0 (rUninit * (nzeros : ℚ)) csize status rad
  else (status, rad)

/-- The tagging loop used when a cluster fails a restart gate:
`for (jj = punt[i]; jj < punt[i+1]; jj++) status[clust[jj]][0] = 'c';`,
with `members` the list `clust[punt[i] .. punt[i+1])`. -/
def tagMembers (members : List ℕ) (status : ℕ → Char) : ℕ → Char :=
  members.foldl (fun st l => Function.update st l 'c') status

/-- The Newton-isolation test of `mps_frestart` (starting.c lines
850-866): for each root outside the cluster, with `outside` carrying
the pairs `(|sc - froot[p]|, frad[p])`, the cluster is rejected
(members tagged `'c'`, second component `true`) when some pair has
`|sc - froot[p]| < (sr + frad[p]) * 5 * n`. -/
def mps_frestart_isolation (n : ℕ) (sr : ℚ) (outside : List (ℚ × ℚ))
    (members : List ℕ) (status : ℕ → Char) : (ℕ → Char) × Bool :=
  if outside.any (fun p => decide (p.1 < (sr + p.2) * 5 * (n : ℚ))) then
    (tagMembers members status, true)
  else (status, false)

/-- The Newton-isolation test of `mps_drestart` (starting.c lines
1010-1027): identical control flow, but the threshold is
`(sr + drad[p]) * (2.0 * n)`. -/
def mps_drestart_isolation (n : ℕ) (sr : ℚ) (outside : List (ℚ × ℚ))
    (members : List ℕ) (status : ℕ → Char) : (ℕ → Char) × Bool :=
  if outside.any (fun p => decide (p.1 < (sr + p.2) * (2 * (n : ℚ)))) then
    (tagMembers members status, true)
  else (status, false)

/-- Per-cluster outcome of the gates a restart controller runs before
the shift stage.  `skipEarly` covers every `goto loop1` path (size-1
cluster, eligibility failure, relative-width failure, isolation
failure, and the double-tier overflow guard); `newtExceeded` is the
inner Newton loop reaching `max_newt_it` without the collaborator
clearing `cont`; `gravityOut` is `|sc - g| > sr`; `reachShift` means
all gates passed and the shift stage is reached. -/
inductive ClusterOutcome
  | skipEarly
  | newtExceeded
  | gravityOut
  | reachShift
deriving DecidableEq

/-- Whether an outcome makes `mps_frestart` / `mps_drestart` execute
`return` (starting.c lines 894-898 and 899-904, resp. 1054-1058 and
1059-1065). -/
def hardStop : ClusterOutcome → Bool
  | ClusterOutcome.newtExceeded => true
  | ClusterOutcome.gravityOut => true
  | ClusterOutcome.skipEarly => false
  | ClusterOutcome.reachShift => false

/-- The cluster loop of `mps_frestart` / `mps_drestart` (starting.c
lines 810-926 resp. 969-1083), abstracted over the per-cluster
outcome: the first component lists the clusters the loop body ran for,
the second those that reached the shift stage.  On `newtExceeded` and
on `gravityOut` the function `return`s, so no later cluster is
visited; every other outcome falls through to `loop1`. -/
def frestartRun : ℕ → List ClusterOutcome → List ℕ × List ℕ
  | _, [] => ([], [])
  | idx, o :: rest =>
    match o with
    | ClusterOutcome.newtExceeded => ([idx], [])
    | ClusterOutcome.gravityOut => ([idx], [])
    | ClusterOutcome.reachShift =>
      let r := frestartRun (idx+1) rest
      (idx :: r.1, idx :: r.2)
    | ClusterOutcome.skipEarly =>
      let r := frestartRun (idx+1) rest
      (idx :: r.1, r.2)

/-- The cluster loop of `mps_mrestart` (starting.c lines 1115-1313):
same gates, but `newtExceeded` (line 1265) and `gravityOut`
(line 1273) jump to `loop1`, so the loop continues with the next
cluster. -/
def mrestartRun : ℕ → List ClusterOutcome → List ℕ × List ℕ
  | _, [] => ([], [])
  | idx, o :: rest =>
    match o with
    | ClusterOutcome.reachShift =>
      let r := mrestartRun (idx+1) rest
      (idx :: r.1, idx :: r.2)
    | _ =>
      let r := mrestartRun (idx+1) rest
      (idx :: r.1, r.2)

/-- Inner Horner loop of `mps_fshift` (starting.c lines 1350-1354):
with `cnt` iterations left, the next index processed is `i + cnt - 1`
(the loop runs `j = n-1` down to `i`, so it starts with the top
index); each iteration does `t = t*g + b[j]; b[j] = t;`. -/
def hornerDownN (K : Type) [CommRing K] (g : K) (i : ℕ) :
    ℕ → (ℕ → K) → K → ((ℕ → K) × K)
  | 0, b, t => (b, t)
  | cnt+1, b, t =>
    let j := i + cnt
    let t2 := t * g + b j
    hornerDownN K g i cnt (Function.update b j t2) t2

/-- Outer loop of `mps_fshift` (starting.c lines 1348-1356): passes
`i = 0 .. m` (the fuel is the number of passes left); each pass sets
`t = b[n]`, runs the inner loop down to `i`, and stores `c[i] = t`. -/
def fshiftOuter (K : Type) [CommRing K] (g : K) (n : ℕ) :
    ℕ → ℕ → (ℕ → K) → (ℕ → K) → (ℕ → K)
  | _, 0, _, c => c
  | i, cntO+1, b, c =>
    let r := hornerDownN K g i (n - i) b (b n)
    fshiftOuter K g n (i+1) cntO r.1 (Function.update c i r.2)

/-- The coefficients `fppc[0..m]` of `p(x+g)` computed by the Horner
deflation of `mps_fshift` (starting.c lines 1336-1363) from the
degree-`n` coefficient array `a`; `mps_dshift` (lines 1368-1395) is
the same computation in DPE arithmetic. -/
def mps_fshift_coeffs (K : Type) [CommRing K] (n m : ℕ) (a : ℕ → K) (g : K) :
    ℕ → K :=
  fshiftOuter K g n 0 (m+1) a (fun _ => 0)

/-! ## Theorems -/

/-- Correctness of the Euclid loop on nonnegative inputs: with `0 < b`
and at least `b` units of fuel, the loop terminates and returns
`gcd a b`. -/
theorem mps_gcd_iter_natCast : ∀ (fuel : ℕ) (a b : ℕ), 0 < b → b ≤ fuel →
    mps_gcd_iter fuel (a : ℤ) (b : ℤ) = some ((Nat.gcd a b : ℕ) : ℤ) := by
  intro fuel
  induction fuel with
  | zero => intro a b hb hf; omega
  | succ fuel ih =>
    intro a b hb hf
    have hbz : ((b : ℤ)) ≠ 0 := by exact_mod_cast hb.ne'
    have htmod : Int.tmod (a : ℤ) (b : ℤ) = ((a % b : ℕ) : ℤ) := by
      rw [Int.tmod_eq_emod (by positivity) (by positivity)]
      exact (Int.natCast_mod a b).symm
    simp only [mps_gcd_iter, hbz, if_false, htmod]
    by_cases hmod : a % b = 0
    · have hdvd : b ∣ a := Nat.dvd_of_mod_eq_zero hmod
      have hgcd : Nat.gcd a b = b := by rw [Nat.gcd_comm]; exact Nat.gcd_eq_left hdvd
      simp [hmod, hgcd]
    · have hcast : ((a % b : ℕ) : ℤ) ≠ 0 := by exact_mod_cast hmod
      have hlt : a % b < b := Nat.mod_lt a hb
      rw [if_neg hcast, ih b (a % b) (Nat.pos_of_ne_zero hmod) (by omega)]
      have hgcd : Nat.gcd b (a % b) = Nat.gcd a b := by
        rw [Nat.gcd_comm a b, Nat.gcd_rec b a]
        exact Nat.gcd_comm _ _
      rw [hgcd]

/-- On a nonnegative first argument and positive second argument,
`mps_gcd` returns the greatest common divisor. -/
theorem mps_gcd_pos (a b : ℤ) (ha : 0 ≤ a) (hb : 0 < b) :
    mps_gcd a b = some ((Int.gcd a b : ℕ) : ℤ) := by
  obtain ⟨m, rfl⟩ := Int.eq_ofNat_of_zero_le ha
  obtain ⟨k, rfl⟩ := Int.eq_ofNat_of_zero_le hb.le
  have hk : 0 < k := by exact_mod_cast hb
  rw [mps_gcd, Int.natAbs_ofNat, Int.gcd_natCast_natCast]
  exact mps_gcd_iter_natCast k m k hk (le_refl k)

/-- Claim C10 (counterexample): as stated the claim quantifies over all
integers `a`, `b` with `b ≠ 0`, but the truncated `%` of C makes the
loop return `-1` on `(5, -3)`, which is not the greatest common
divisor (that is `1`). -/
theorem mps_gcd_negative_counterexample :
    mps_gcd 5 (-3) = some (-1) ∧ ((Int.gcd 5 (-3) : ℕ) : ℤ) = 1 ∧ ((-1 : ℤ)) ≠ 1 := by
  decide

/-- Claim C10 (amended): for `0 ≤ a` and `0 < b` — in particular for
all positive cluster sizes — `mps_gcd` terminates and returns
`gcd(a, b)`, and the modulo inside its loop never divides by zero;
a call with `b = 0` hits the division by zero `a % 0` on the first
iteration (modelled by `none`). -/
theorem mps_gcd_amended (a b : ℤ) (ha : 0 ≤ a) (hb : 0 < b) :
    mps_gcd a b = some ((Int.gcd a b : ℕ) : ℤ) ∧ ∀ x : ℤ, mps_gcd x 0 = none :=
  ⟨mps_gcd_pos a b ha hb, fun _ => rfl⟩

/-- Witness for `mps_gcd_amended` at `a = 12`, `b = 8`. -/
theorem mps_gcd_amended_witness :
    ((0 : ℤ) ≤ 12 ∧ (0 : ℤ) < 8) ∧
    (mps_gcd 12 8 = some ((Int.gcd 12 8 : ℕ) : ℤ) ∧ ∀ x : ℤ, mps_gcd x 0 = none) :=
  ⟨by decide, mps_gcd_amended 12 8 (by decide) (by decide)⟩

/-- Support for the intent of claim C1: the `mps_fstart` / `mps_mstart`
placement loops visit the concatenation of the slot ranges, so under
the partitioning invariant (`partitioning[0] = 0`, monotone
boundaries) they visit exactly the slots `0 .. partitioning[n_radii])`,
each once. -/
theorem fstartSlots_covers (part : ℕ → ℕ) : ∀ nRadii, part 0 = 0 →
    (∀ i, i < nRadii → part i ≤ part (i+1)) →
    fstartSlots part nRadii = List.range (part nRadii) := by
  intro nRadii
  induction nRadii with
  | zero => intro h0 _; simp [fstartSlots, h0]
  | succ m ih =>
    intro h0 hmono
    have hsplit : fstartSlots part (m+1)
        = fstartSlots part m ++ List.range' (part m) (part (m+1) - part m) := by
      simp [fstartSlots, List.range_succ]
    rw [hsplit, ih h0 (fun i hi => hmono i (by omega)), List.range_eq_range',
      List.range_eq_range']
    have happ := List.range'_append 0 (part m) (part (m+1) - part m) 1
    simp only [one_mul, zero_add] at happ
    rw [happ]
    congr 1
    have := hmono m (by omega)
    omega

/-- Claim C1 (code bug): with two well-separated annuli on a cluster
of size 2 (hull vertices 1 and 2, compacted partitioning `(0, 1, 2)`),
the placement loop of `mps_dstart` — which reads
`iold = partitioning[i]` at the hull-vertex index and iterates
`for (j = iold; j < i; j++)` — visits no slot at all, so no root index
is assigned; the `mps_fstart` loop on the same partitioning visits
each of the two slots exactly once, as the claim demands. -/
theorem mps_dstart_assigns_nothing_on_two_annuli :
    dstartSlots (fun i => decide (i = 1 ∨ i = 2)) (fun i => i) 2 = [] ∧
    fstartSlots (fun i => i) 2 = [0, 1] := by
  decide

/-- Claim C3 (code bug): at the DPE tier, for a radius whose log
`temp = -101` lies below `xsmall = -100` (so the claim demands the
clamp to the smallest positive value, here `small = 1/4`), the clamp
cascade of `mps_dcompute_starting_radii` stores `exp big` instead:
the `temp < xbig` branch overwrites the minimum with `RDPE_MAX` and
the unguarded `rdpe_exp_eq` then exponentiates it.  The double-tier
cascade clamps the same input to `small`, as the claim states. -/
theorem mps_dcompute_radius_clamp_bug :
    mps_dstarting_radius ℝ Real.exp (-100) 100 (1/4) 4 0 0 (-101) = Real.exp 4 ∧
    Real.exp 4 ≠ (1/4 : ℝ) ∧
    mps_fstarting_radius ℝ Real.exp (-100) 100 (1/4) 4 0 0 (-101) = 1/4 := by
  refine ⟨by norm_num [mps_dstarting_radius], ?_, by norm_num [mps_fstarting_radius]⟩
  have h := Real.add_one_le_exp (4 : ℝ)
  intro hc
  rw [hc] at h
  norm_num at h

/-- Claim C4 (code bug): on the spec's own compaction scenario — radii
`(1, 1.0001, 1.0002, 2)`, `δ = 0.001`, partitioning `(0,1,2,3,4)`,
`n = 4` — the compaction pass of `mps_fcompute_starting_radii` merges
the first three annuli but its backward-move loop stops at
`k < n_radii`, never moving the closing boundary, so afterwards
`partitioning = (0, 3, 2)`: not strictly increasing, and
`partitioning[n_radii] = 2 ≠ 4 = n`. -/
theorem mps_fcompact_partitioning_bug :
    (mps_fcompact (1/1000)
      ⟨fun k => [1, 10001/10000, 10002/10000, 2].getD k 0, fun i => i, 4⟩).nRadii = 2 ∧
    (mps_fcompact (1/1000)
      ⟨fun k => [1, 10001/10000, 10002/10000, 2].getD k 0, fun i => i, 4⟩).part 1 = 3 ∧
    (mps_fcompact (1/1000)
      ⟨fun k => [1, 10001/10000, 10002/10000, 2].getD k 0, fun i => i, 4⟩).part 2 = 2 ∧
    ¬ ((mps_fcompact (1/1000)
      ⟨fun k => [1, 10001/10000, 10002/10000, 2].getD k 0, fun i => i, 4⟩).part 1 <
        (mps_fcompact (1/1000)
      ⟨fun k => [1, 10001/10000, 10002/10000, 2].getD k 0, fun i => i, 4⟩).part 2) ∧
    (mps_fcompact (1/1000)
      ⟨fun k => [1, 10001/10000, 10002/10000, 2].getD k 0, fun i => i, 4⟩).part
      ((mps_fcompact (1/1000)
      ⟨fun k => [1, 10001/10000, 10002/10000, 2].getD k 0, fun i => i, 4⟩).nRadii) ≠ 4 := by
  norm_num [mps_fcompact, compactLoop, compactStep, findJ, findJAux, fCompactAcc, shiftLeft,
    Function.update_apply, List.range']

/-- Claim C5 (code bug): on the same input, the DPE/multiprecision
compaction replaces radius 0 by `(1 + 2 + 2)/3 = 5/3` — its
accumulation loop adds `dradii[j]` instead of `dradii[k]` — while the
arithmetic mean of the merged run, which the double tier computes and
the code comment announces, is `(1 + 1.0001 + 1.0002)/3 = 1.0001`. -/
theorem mps_dcompact_mean_bug :
    (mps_dcompact (1/1000)
      ⟨fun k => [1, 10001/10000, 10002/10000, 2].getD k 0, fun i => i, 4⟩).radii 0 = 5/3 ∧
    (mps_fcompact (1/1000)
      ⟨fun k => [1, 10001/10000, 10002/10000, 2].getD k 0, fun i => i, 4⟩).radii 0
      = (1 + 10001/10000 + 10002/10000) / 3 ∧
    (5/3 : ℚ) ≠ (1 + 10001/10000 + 10002/10000) / 3 := by
  norm_num [mps_dcompact, mps_fcompact, compactLoop, compactStep, findJ, findJAux,
    dCompactAcc, fCompactAcc, shiftLeft, Function.update_apply, List.range']

/-- Claim C6 (code bug): on a two-root cluster (`clust` the identity,
`punt[i_clust] = 0`, `csize = 2`) with `g = 1`, `eps = 1`:
with annulus radius `1/2` and `nzeros = 2` the test fires, and
`mps_mstart` stores as inclusion radius `r * nzeros` computed from its
never-assigned local `r` (modelled as `0`) instead of the annulus
value `(1/2) * 2 = 1`; `mps_dstart` compares with the strict `<`, so at
the equality point `r*nzeros = eps*g` it marks nothing although the
claim demands marking on `≤`; and when the `mps_dstart` test does fire
(radius `1/4`), its loop bound `j <= punt[i+1] - punt[i]` also marks
root index 2, which is outside the two-element cluster. -/
theorem mps_start_output_test_bug :
    ((mps_mstart_output_test 1 1 (1/2) 0 2 2 (fun l => l) 0 (fun _ => 'c') (fun _ => 5)).1 0 = 'o' ∧
     (mps_mstart_output_test 1 1 (1/2) 0 2 2 (fun l => l) 0 (fun _ => 'c') (fun _ => 5)).2 0 = 0 ∧
     ((1 : ℚ)/2) * 2 = 1 ∧ (0 : ℚ) ≠ 1) ∧
    ((mps_dstart_output_test 1 1 (1/2) 2 2 (fun l => l) 0 (fun _ => 'c') (fun _ => 5)).1 0 = 'c' ∧
     ((1 : ℚ)/2) * 2 ≤ 1 * 1) ∧
    (mps_dstart_output_test 1 1 (1/4) 2 2 (fun l => l) 0 (fun _ => 'c') (fun _ => 5)).1 2 = 'o' := by
  norm_num [mps_mstart_output_test, mps_dstart_output_test, markLoop,
    Function.update_apply, List.range_succ, List.foldl_append]

/-- Claim C7 (counterexample): with degree `n = 1`, super-radius
`sr = 1` and one outside root at distance `3` with inclusion radius
`0`, the DPE-tier test of `mps_drestart` lets the cluster pass
(`(sr + rad) * (2n) = 2 ≤ 3`), although the claimed `K = 5` criterion
is violated (`3 < (sr + rad) * 5 * n = 5`). -/
theorem mps_drestart_isolation_counterexample :
    (mps_drestart_isolation 1 1 [(3, 0)] [0, 1] (fun _ => 'u')).2 = false ∧
    ¬ ((1 + 0) * 5 * (1 : ℚ) ≤ 3) := by
  norm_num [mps_drestart_isolation]

/-- Claim C8 (counterexample): when the first cluster exhausts
`max_newt_it`, `mps_frestart` (and `mps_drestart`) execute `return`,
so the second cluster is never examined — the controller does not
continue with the remaining clusters as the claim states. -/
theorem mps_frestart_newton_abort_counterexample :
    (frestartRun 0 [ClusterOutcome.newtExceeded, ClusterOutcome.reachShift]).1 = [0] ∧
    1 ∉ (frestartRun 0 [ClusterOutcome.newtExceeded, ClusterOutcome.reachShift]).1 ∧
    (frestartRun 0 [ClusterOutcome.newtExceeded, ClusterOutcome.reachShift]).2 = [] := by
  decide

/-- Status entries not in the tagged member list are unchanged. -/
theorem tagMembers_not_mem : ∀ (members : List ℕ) (status : ℕ → Char) (l : ℕ),
    l ∉ members → tagMembers members status l = status l := by
  intro members
  induction members with
  | nil => intro status l _; rfl
  | cons a tl ih =>
    intro status l hl
    have h1 : l ≠ a := fun h => hl (by simp [h])
    have h2 : l ∉ tl := fun h => hl (by simp [h])
    show tagMembers tl (Function.update status a 'c') l = status l
    rw [ih (Function.update status a 'c') l h2, Function.update_noteq h1]

/-- Every tagged member ends with status character `'c'`. -/
theorem tagMembers_mem : ∀ (members : List ℕ) (status : ℕ → Char) (l : ℕ),
    l ∈ members → tagMembers members status l = 'c' := by
  intro members
  induction members with
  | nil => intro _ l h; simp at h
  | cons a tl ih =>
    intro status l hl
    show tagMembers tl (Function.update status a 'c') l = 'c'
    by_cases h2 : l ∈ tl
    · exact ih _ l h2
    · have h1 : l = a := by
        rcases List.mem_cons.mp hl with h | h
        · exact h
        · exact absurd h h2
      subst h1
      rw [tagMembers_not_mem tl _ l h2, Function.update_same]

/-- An `any`-scan over strict threshold violations is false exactly
when every pair meets the threshold. -/
theorem any_lt_eq_false_iff (outside : List (ℚ × ℚ)) (f : ℚ × ℚ → ℚ) :
    (outside.any (fun p => decide (p.1 < f p))) = false ↔ ∀ p ∈ outside, f p ≤ p.1 := by
  rw [← Bool.not_eq_true, List.any_eq_true]
  simp only [decide_eq_true_eq, not_exists, not_and]
  constructor
  · intro h p hp
    exact not_lt.mp (h p hp)
  · intro h p hp
    exact not_lt.mpr (h p hp)

/-- Claim C7 (amended): the double-tier test of `mps_frestart` passes a
cluster exactly when every outside root `p` has
`|sc - root[p]| ≥ (sr + rad[p]) * 5 * n`, while the DPE-tier test of
`mps_drestart` uses the factor `2 * n` instead of `5 * n`; at either
tier, when some outside root violates the tier's threshold every
member of the cluster is tagged `'c'` and the cluster is skipped
without shifting. -/
theorem mps_restart_isolation_amended (n : ℕ) (sr : ℚ) (outside : List (ℚ × ℚ))
    (members : List ℕ) (status : ℕ → Char) (l : ℕ) (hl : l ∈ members) :
    ((mps_frestart_isolation n sr outside members status).2 = false ↔
      ∀ p ∈ outside, (sr + p.2) * 5 * (n : ℚ) ≤ p.1) ∧
    ((mps_drestart_isolation n sr outside members status).2 = false ↔
      ∀ p ∈ outside, (sr + p.2) * (2 * (n : ℚ)) ≤ p.1) ∧
    ((mps_frestart_isolation n sr outside members status).2 = true →
      (mps_frestart_isolation n sr outside members status).1 l = 'c') ∧
    ((mps_drestart_isolation n sr outside members status).2 = true →
      (mps_drestart_isolation n sr outside members status).1 l = 'c') := by
  have hf := any_lt_eq_false_iff outside (fun p => (sr + p.2) * 5 * (n : ℚ))
  have hd := any_lt_eq_false_iff outside (fun p => (sr + p.2) * (2 * (n : ℚ)))
  refine ⟨?_, ?_, ?_, ?_⟩
  · unfold mps_frestart_isolation
    cases hb : outside.any (fun p => decide (p.1 < (sr + p.2) * 5 * (n : ℚ)))
    · simp only [hb, Bool.false_eq_true, if_false]
      simpa using hf.mp hb
    · simp only [hb, if_true]
      simp only [hb] at hf
      simp [hf]
  · unfold mps_drestart_isolation
    cases hb : outside.any (fun p => decide (p.1 < (sr + p.2) * (2 * (n : ℚ))))
    · simp only [hb, Bool.false_eq_true, if_false]
      simpa using hd.mp hb
    · simp only [hb, if_true]
      simp only [hb] at hd
      simp [hd]
  · unfold mps_frestart_isolation
    cases hb : outside.any (fun p => decide (p.1 < (sr + p.2) * 5 * (n : ℚ)))
    · simp [hb]
    · simp only [hb, if_true]
      intro _
      exact tagMembers_mem members status l hl
  · unfold mps_drestart_isolation
    cases hb : outside.any (fun p => decide (p.1 < (sr + p.2) * (2 * (n : ℚ))))
    · simp [hb]
    · simp only [hb, if_true]
      intro _
      exact tagMembers_mem members status l hl

/-- Witness for `mps_restart_isolation_amended`: degree 1, `sr = 1`,
a single outside root at distance 100, a one-member cluster. -/
theorem mps_restart_isolation_amended_witness :
    ((0 : ℕ) ∈ [0]) ∧
    (((mps_frestart_isolation 1 1 [(100, 0)] [0] (fun _ => 'u')).2 = false ↔
      ∀ p ∈ [((100 : ℚ), (0 : ℚ))], (1 + p.2) * 5 * ((1 : ℕ) : ℚ) ≤ p.1) ∧
    ((mps_drestart_isolation 1 1 [(100, 0)] [0] (fun _ => 'u')).2 = false ↔
      ∀ p ∈ [((100 : ℚ), (0 : ℚ))], (1 + p.2) * (2 * ((1 : ℕ) : ℚ)) ≤ p.1) ∧
    ((mps_frestart_isolation 1 1 [(100, 0)] [0] (fun _ => 'u')).2 = true →
      (mps_frestart_isolation 1 1 [(100, 0)] [0] (fun _ => 'u')).1 0 = 'c') ∧
    ((mps_drestart_isolation 1 1 [(100, 0)] [0] (fun _ => 'u')).2 = true →
      (mps_drestart_isolation 1 1 [(100, 0)] [0] (fun _ => 'u')).1 0 = 'c')) :=
  ⟨by decide, mps_restart_isolation_amended 1 1 [(100, 0)] [0] (fun _ => 'u') 0 (by decide)⟩

/-- The `mps_mrestart` cluster loop visits every cluster, whatever the
per-cluster outcomes are. -/
theorem mrestartRun_visited : ∀ (outs : List ClusterOutcome) (idx : ℕ),
    (mrestartRun idx outs).1 = List.range' idx outs.length := by
  intro outs
  induction outs with
  | nil => intro idx; rfl
  | cons o tl ih =>
    intro idx
    cases o <;> simp [mrestartRun, ih, List.range'_succ]

/-- Only clusters whose outcome is `reachShift` appear in the shift
list of `mps_mrestart`. -/
theorem mrestartRun_shift_mem : ∀ (outs : List ClusterOutcome) (idx l : ℕ),
    l ∈ (mrestartRun idx outs).2 →
      idx ≤ l ∧ outs.getD (l - idx) ClusterOutcome.reachShift = ClusterOutcome.reachShift := by
  intro outs
  induction outs with
  | nil => intro idx l h; simp [mrestartRun] at h
  | cons o tl ih =>
    intro idx l h
    cases o
    case reachShift =>
      simp only [mrestartRun] at h
      rcases List.mem_cons.mp h with rfl | h2
      · exact ⟨le_refl _, by simp⟩
      · obtain ⟨h1, h2⟩ := ih (idx+1) l h2
        refine ⟨by omega, ?_⟩
        rw [show l - idx = (l - (idx+1)) + 1 from by omega, List.getD_cons_succ]
        exact h2
    all_goals
      simp only [mrestartRun] at h
      obtain ⟨h1, h2⟩ := ih (idx+1) l h
      refine ⟨by omega, ?_⟩
      rw [show l - idx = (l - (idx+1)) + 1 from by omega, List.getD_cons_succ]
      exact h2

/-- The `mps_frestart` / `mps_drestart` cluster loop visits exactly the
clusters up to and including the first hard stop (`newtExceeded` or
`gravityOut`), at which point the function returns. -/
theorem frestartRun_visited : ∀ (outs : List ClusterOutcome) (idx : ℕ),
    (frestartRun idx outs).1
      = List.range' idx (min outs.length (outs.findIdx hardStop + 1)) := by
  intro outs
  induction outs with
  | nil => intro idx; simp [frestartRun]
  | cons o tl ih =>
    intro idx
    cases o
    case newtExceeded =>
      show [idx] = _
      simp only [List.findIdx_cons, hardStop, cond_true, List.length_cons]
      rw [show min (tl.length + 1) (0 + 1) = 1 from by omega, List.range'_one]
    case gravityOut =>
      show [idx] = _
      simp only [List.findIdx_cons, hardStop, cond_true, List.length_cons]
      rw [show min (tl.length + 1) (0 + 1) = 1 from by omega, List.range'_one]
    case skipEarly =>
      show idx :: (frestartRun (idx+1) tl).1 = _
      simp only [List.findIdx_cons, hardStop, cond_false, List.length_cons]
      rw [ih (idx+1),
        show min (tl.length + 1) (List.findIdx hardStop tl + 1 + 1)
          = min tl.length (List.findIdx hardStop tl + 1) + 1 from by omega,
        List.range'_succ]
    case reachShift =>
      show idx :: (frestartRun (idx+1) tl).1 = _
      simp only [List.findIdx_cons, hardStop, cond_false, List.length_cons]
      rw [ih (idx+1),
        show min (tl.length + 1) (List.findIdx hardStop tl + 1 + 1)
          = min tl.length (List.findIdx hardStop tl + 1) + 1 from by omega,
        List.range'_succ]

/-- Claim C8 (amended): a cluster whose inner Newton loop reaches
`max_newt_it` is abandoned without a shift at every tier, but only
`mps_mrestart` then continues with the remaining clusters in registry
order; `mps_frestart` and `mps_drestart` return from the whole
controller at the first such cluster (or at a gravity-bound failure),
leaving the remaining clusters unprocessed for this pass. -/
theorem mps_restart_newton_exceeded_amended (outs : List ClusterOutcome) (k : ℕ)
    (hk : outs.getD k ClusterOutcome.reachShift = ClusterOutcome.newtExceeded) :
    (mrestartRun 0 outs).1 = List.range outs.length ∧
    k ∉ (mrestartRun 0 outs).2 ∧
    (frestartRun 0 outs).1
      = List.range' 0 (min outs.length (outs.findIdx hardStop + 1)) := by
  refine ⟨?_, ?_, frestartRun_visited outs 0⟩
  · rw [mrestartRun_visited outs 0, List.range_eq_range']
  · intro hmem
    obtain ⟨h1, h2⟩ := mrestartRun_shift_mem outs 0 k hmem
    rw [Nat.sub_zero, hk] at h2
    exact ClusterOutcome.noConfusion h2

/-- Witness for `mps_restart_newton_exceeded_amended`: two clusters,
the first exhausting the Newton iterations, the second fully
shiftable. -/
theorem mps_restart_newton_exceeded_amended_witness :
    ([ClusterOutcome.newtExceeded, ClusterOutcome.reachShift].getD 0 ClusterOutcome.reachShift
      = ClusterOutcome.newtExceeded) ∧
    ((mrestartRun 0 [ClusterOutcome.newtExceeded, ClusterOutcome.reachShift]).1
      = List.range [ClusterOutcome.newtExceeded, ClusterOutcome.reachShift].length ∧
    0 ∉ (mrestartRun 0 [ClusterOutcome.newtExceeded, ClusterOutcome.reachShift]).2 ∧
    (frestartRun 0 [ClusterOutcome.newtExceeded, ClusterOutcome.reachShift]).1
      = List.range' 0 (min [ClusterOutcome.newtExceeded, ClusterOutcome.reachShift].length
        ([ClusterOutcome.newtExceeded, ClusterOutcome.reachShift].findIdx hardStop + 1))) :=
  ⟨by decide,
    mps_restart_newton_exceeded_amended [ClusterOutcome.newtExceeded, ClusterOutcome.reachShift]
      0 (by decide)⟩

/-- Difference of consecutive `punt` boundaries is the previous
cluster size, exactly as `mps_maximize_distance` derives it. -/
theorem puntOf_diff (sizes : List ℕ) (i : ℕ) (h1 : 1 ≤ i) (h2 : i ≤ sizes.length) :
    puntOf sizes i - puntOf sizes (i-1) = ((sizes.getD (i-1) 0 : ℕ) : ℤ) := by
  obtain ⟨j, rfl⟩ : ∃ j, i = j + 1 := ⟨i - 1, by omega⟩
  have hj : j < sizes.length := by omega
  simp only [puntOf, Nat.add_sub_cancel]
  rw [List.sum_take_succ sizes j hj, List.getD_eq_getElem sizes 0 hj]
  push_cast
  ring

/-- Entries of a list of positive sizes are positive. -/
theorem sizes_getD_pos (sizes : List ℕ) (hall : ∀ m ∈ sizes, 1 ≤ m) (i : ℕ)
    (hi : i < sizes.length) : 1 ≤ sizes.getD i 0 := by
  rw [List.getD_eq_getElem sizes 0 hi]
  exact hall _ (List.getElem_mem hi)

/-- Evaluation of `mps_maximize_distance` on a registry of positive
cluster sizes: the returned and stored value is
`last_sigma + π * m * gcd(m, n) / (4 * n)` with `m` the previous and
`n` the current cluster size. -/
theorem maximize_distance_eval (sizes : List ℕ) (hall : ∀ m ∈ sizes, 1 ≤ m)
    (i : ℕ) (ls : ℝ) (h1 : 1 ≤ i) (h2 : i < sizes.length) :
    mps_maximize_distance ℝ Real.pi (puntOf sizes) ls i (sizes.getD i 0) =
      some (ls + Real.pi * ((sizes.getD (i-1) 0 : ℝ) *
        (Nat.gcd (sizes.getD (i-1) 0) (sizes.getD i 0) : ℝ)) /
        (4 * (sizes.getD i 0 : ℝ))) := by
  have hm := sizes_getD_pos sizes hall (i-1) (by omega)
  have hn := sizes_getD_pos sizes hall i h2
  simp only [mps_maximize_distance]
  rw [puntOf_diff sizes i h1 (le_of_lt h2)]
  rw [mps_gcd_pos _ _ (by positivity) (by exact_mod_cast hn)]
  rw [Option.map_some', Int.gcd_natCast_natCast]
  congr 1
  push_cast
  ring

/-- Accumulation of the deterministic scheduler: after the first `k`
clusters, `last_sigma` is the sum of the per-cluster increments. -/
theorem lastSigmaAfter_sum (sizes : List ℕ) (hall : ∀ m ∈ sizes, 1 ≤ m) :
    ∀ k, k ≤ sizes.length →
      lastSigmaAfter ℝ Real.pi sizes k =
        some (Finset.sum (Finset.Ico 1 k) (fun i =>
          Real.pi * ((sizes.getD (i-1) 0 : ℝ) *
            (Nat.gcd (sizes.getD (i-1) 0) (sizes.getD i 0) : ℝ)) /
            (4 * (sizes.getD i 0 : ℝ)))) := by
  intro k
  induction k with
  | zero => intro _; simp [lastSigmaAfter]
  | succ k ih =>
    intro hk
    by_cases hk0 : k = 0
    · subst hk0
      simp [lastSigmaAfter]
    · have h1 : 1 ≤ k := Nat.one_le_iff_ne_zero.mpr hk0
      show (if k = 0 then some 0 else _) = _
      rw [if_neg hk0, ih (by omega), Option.some_bind,
        maximize_distance_eval sizes hall k _ h1 (by omega)]
      congr 1
      rw [Finset.sum_Ico_succ_top h1]

/-- Claim C2: with `random_seed` false the scheduler is deterministic —
the first cluster stores `last_sigma = 0`; for every later cluster
`mps_maximize_distance` returns (and stores)
`last_sigma + π·m·gcd(m,n)/(4n)` with `m = punt[i]−punt[i−1]` the
previous and `n` the current cluster size; and after `k` clusters
`last_sigma` equals the sum of the per-cluster increments. -/
theorem mps_scheduler_deterministic (sizes : List ℕ) (k : ℕ)
    (hall : ∀ m ∈ sizes, 1 ≤ m) (hk : k ≤ sizes.length) :
    lastSigmaAfter ℝ Real.pi sizes 1 = some 0 ∧
    (∀ i ls, 1 ≤ i → i < sizes.length →
      mps_maximize_distance ℝ Real.pi (puntOf sizes) ls i (sizes.getD i 0) =
        some (ls + Real.pi * ((sizes.getD (i-1) 0 : ℝ) *
          (Nat.gcd (sizes.getD (i-1) 0) (sizes.getD i 0) : ℝ)) /
          (4 * (sizes.getD i 0 : ℝ)))) ∧
    lastSigmaAfter ℝ Real.pi sizes k =
      some (Finset.sum (Finset.Ico 1 k) (fun i =>
        Real.pi * ((sizes.getD (i-1) 0 : ℝ) *
          (Nat.gcd (sizes.getD (i-1) 0) (sizes.getD i 0) : ℝ)) /
          (4 * (sizes.getD i 0 : ℝ)))) :=
  ⟨rfl, fun i ls hi hlen => maximize_distance_eval sizes hall i ls hi hlen,
    lastSigmaAfter_sum sizes hall k hk⟩

/-- Witness for `mps_scheduler_deterministic` on the spec's scenario:
cluster sizes `(3, 5, 4)`, three clusters. -/
theorem mps_scheduler_deterministic_witness :
    ((∀ m ∈ ([3, 5, 4] : List ℕ), 1 ≤ m) ∧ 3 ≤ ([3, 5, 4] : List ℕ).length) ∧
    (lastSigmaAfter ℝ Real.pi ([3, 5, 4] : List ℕ) 1 = some 0 ∧
    (∀ i ls, 1 ≤ i → i < ([3, 5, 4] : List ℕ).length →
      mps_maximize_distance ℝ Real.pi (puntOf ([3, 5, 4] : List ℕ)) ls i (([3, 5, 4] : List ℕ).getD i 0) =
        some (ls + Real.pi * ((([3, 5, 4] : List ℕ).getD (i-1) 0 : ℝ) *
          (Nat.gcd (([3, 5, 4] : List ℕ).getD (i-1) 0) (([3, 5, 4] : List ℕ).getD i 0) : ℝ)) /
          (4 * (([3, 5, 4] : List ℕ).getD i 0 : ℝ)))) ∧
    lastSigmaAfter ℝ Real.pi ([3, 5, 4] : List ℕ) 3 =
      some (Finset.sum (Finset.Ico 1 3) (fun i =>
        Real.pi * ((([3, 5, 4] : List ℕ).getD (i-1) 0 : ℝ) *
          (Nat.gcd (([3, 5, 4] : List ℕ).getD (i-1) 0) (([3, 5, 4] : List ℕ).getD i 0) : ℝ)) /
          (4 * (([3, 5, 4] : List ℕ).getD i 0 : ℝ))))) :=
  ⟨⟨by decide, by decide⟩, mps_scheduler_deterministic ([3, 5, 4] : List ℕ) 3 (by decide) (by decide)⟩

/-- The inner Horner loop writes only indices below `i + cnt`. -/
theorem hornerDownN_preserve {K : Type} [CommRing K] (g : K) (i : ℕ) :
    ∀ (cnt : ℕ) (b : ℕ → K) (t : K) (j : ℕ), i + cnt ≤ j →
      ((hornerDownN K g i cnt b t).1) j = b j := by
  intro cnt
  induction cnt with
  | zero => intro b t j _; rfl
  | succ cnt ih =>
    intro b t j hj
    show ((hornerDownN K g i cnt
      (Function.update b (i+cnt) (t * g + b (i+cnt))) (t * g + b (i+cnt))).1) j = b j
    rw [ih _ _ j (by omega), Function.update_noteq (by omega)]

/-- Synthetic-division identity for one Horner pass: the pass splits
the polynomial with coefficients `b (i) .. b (i+cnt-1)` and leading
term `t` into quotient by `(x - g)` (whose coefficients are the stored
partial sums) and remainder (the returned `t`). -/
theorem hornerDownN_eval {K : Type} [CommRing K] (g x : K) (i : ℕ) :
    ∀ (cnt : ℕ) (b : ℕ → K) (t : K),
      (hornerDownN K g i cnt b t).2
        + (x - g) * Finset.sum (Finset.range cnt) (fun k =>
            (if k + 1 = cnt then t else (hornerDownN K g i cnt b t).1 (i+1+k)) * x^k)
      = t * x^cnt + Finset.sum (Finset.range cnt) (fun k => b (i+k) * x^k) := by
  intro cnt
  induction cnt with
  | zero => intro b t; simp [hornerDownN]
  | succ cnt ih =>
    intro b t
    have hstep : hornerDownN K g i (cnt+1) b t
        = hornerDownN K g i cnt (Function.update b (i+cnt) (t * g + b (i+cnt)))
            (t * g + b (i+cnt)) := rfl
    rw [hstep]
    have IH := ih (Function.update b (i+cnt) (t * g + b (i+cnt))) (t * g + b (i+cnt))
    set R := hornerDownN K g i cnt (Function.update b (i+cnt) (t * g + b (i+cnt)))
      (t * g + b (i+cnt)) with hR
    have htop : R.1 (i+cnt) = t * g + b (i+cnt) := by
      rw [hR, hornerDownN_preserve g i cnt _ _ (i+cnt) (le_refl _), Function.update_same]
    have hsumIH : Finset.sum (Finset.range cnt) (fun k =>
          (if k + 1 = cnt then (t * g + b (i+cnt)) else R.1 (i+1+k)) * x^k)
        = Finset.sum (Finset.range cnt) (fun k => R.1 (i+1+k) * x^k) := by
      refine Finset.sum_congr rfl ?_
      intro k hk
      by_cases hke : k + 1 = cnt
      · rw [if_pos hke, show i+1+k = i+cnt from by omega, htop]
      · rw [if_neg hke]
    rw [hsumIH] at IH
    have hupd : Finset.sum (Finset.range cnt) (fun k =>
          Function.update b (i+cnt) (t * g + b (i+cnt)) (i+k) * x^k)
        = Finset.sum (Finset.range cnt) (fun k => b (i+k) * x^k) := by
      refine Finset.sum_congr rfl ?_
      intro k hk
      have := Finset.mem_range.mp hk
      rw [Function.update_noteq (by omega)]
    rw [hupd] at IH
    have hsumG : Finset.sum (Finset.range (cnt+1)) (fun k =>
          (if k + 1 = cnt + 1 then t else R.1 (i+1+k)) * x^k)
        = Finset.sum (Finset.range cnt) (fun k => R.1 (i+1+k) * x^k) + t * x^cnt := by
      rw [Finset.sum_range_succ, if_pos rfl]
      congr 1
      refine Finset.sum_congr rfl ?_
      intro k hk
      have := Finset.mem_range.mp hk
      rw [if_neg (by omega)]
    have hbsum : Finset.sum (Finset.range (cnt+1)) (fun k => b (i+k) * x^k)
        = Finset.sum (Finset.range cnt) (fun k => b (i+k) * x^k) + b (i+cnt) * x^cnt :=
      Finset.sum_range_succ _ _
    rw [hsumG, hbsum]
    linear_combination IH

/-- The outer deflation loop maintains the expansion invariant: the
processed passes contribute `c k (x-g)^k` and the unprocessed
coefficients contribute `(x-g)^i` times the remaining polynomial. -/
theorem fshiftOuter_eval {K : Type} [CommRing K] (g x : K) (n : ℕ) :
    ∀ (cntO i : ℕ) (b c : ℕ → K), i + cntO = n + 1 →
      Finset.sum (Finset.range (n+1)) (fun k => (fshiftOuter K g n i cntO b c) k * (x - g)^k)
      = Finset.sum (Finset.range i) (fun k => c k * (x - g)^k)
        + (x - g)^i * Finset.sum (Finset.range cntO) (fun k => b (i+k) * x^k) := by
  intro cntO
  induction cntO with
  | zero =>
    intro i b c hi
    have hieq : i = n + 1 := by omega
    subst hieq
    simp [fshiftOuter]
  | succ cntO ih =>
    intro i b c hi
    have hni : n - i = cntO := by omega
    have hstep : fshiftOuter K g n i (cntO+1) b c
        = fshiftOuter K g n (i+1) cntO
            (hornerDownN K g i (n-i) b (b n)).1
            (Function.update c i (hornerDownN K g i (n-i) b (b n)).2) := rfl
    rw [hstep, hni]
    have hinner := hornerDownN_eval g x i cntO b (b n)
    set R := hornerDownN K g i cntO b (b n) with hR
    rw [ih (i+1) R.1 (Function.update c i R.2) (by omega)]
    rw [Finset.sum_range_succ]
    have hcupd : Finset.sum (Finset.range i) (fun k =>
          Function.update c i R.2 k * (x-g)^k)
        = Finset.sum (Finset.range i) (fun k => c k * (x-g)^k) := by
      refine Finset.sum_congr rfl ?_
      intro k hk
      have := Finset.mem_range.mp hk
      rw [Function.update_noteq (by omega)]
    rw [hcupd, Function.update_same]
    have htopR : R.1 (i + cntO) = b (i + cntO) := by
      rw [hR, hornerDownN_preserve g i cntO b (b n) (i+cntO) (le_refl _)]
    have hif : Finset.sum (Finset.range cntO) (fun k =>
          (if k + 1 = cntO then (b n) else R.1 (i+1+k)) * x^k)
        = Finset.sum (Finset.range cntO) (fun k => R.1 (i+1+k) * x^k) := by
      refine Finset.sum_congr rfl ?_
      intro k hk
      by_cases hke : k + 1 = cntO
      · rw [if_pos hke, show i+1+k = i+cntO from by omega, htopR,
          show i + cntO = n from by omega]
      · rw [if_neg hke]
    rw [hif] at hinner
    have hbs : Finset.sum (Finset.range (cntO+1)) (fun k => b (i+k) * x^k)
        = Finset.sum (Finset.range cntO) (fun k => b (i+k) * x^k) + b n * x^cntO := by
      rw [Finset.sum_range_succ, show i + cntO = n from by omega]
    rw [hbs]
    linear_combination (x - g)^i * hinner

/-- Evaluation form of the Horner deflation: the computed coefficients
expand the input polynomial around `g`, i.e.
`Σ c_k (x-g)^k = Σ a_k x^k` for every `x`. -/
theorem mps_fshift_coeffs_eval {K : Type} [CommRing K] (n : ℕ) (a : ℕ → K) (g x : K) :
    Finset.sum (Finset.range (n+1)) (fun k => mps_fshift_coeffs K n n a g k * (x - g)^k)
    = Finset.sum (Finset.range (n+1)) (fun k => a k * x^k) := by
  have h := fshiftOuter_eval g x n (n+1) 0 a (fun _ => 0) (by omega)
  simpa [mps_fshift_coeffs] using h

/-- Coefficient extraction over `ℚ`: two degree-`n` coefficient
families inducing the same polynomial function agree. -/
theorem coeff_eq_of_eval_eq (n : ℕ) (u v : ℕ → ℚ)
    (h : ∀ x : ℚ, Finset.sum (Finset.range (n+1)) (fun k => u k * x^k)
      = Finset.sum (Finset.range (n+1)) (fun k => v k * x^k))
    (j : ℕ) (hj : j ≤ n) : u j = v j := by
  have hcoeff : ∀ w : ℕ → ℚ,
      (Finset.sum (Finset.range (n+1))
        (fun k => Polynomial.C (w k) * Polynomial.X ^ k)).coeff j = w j := by
    intro w
    rw [Polynomial.finset_sum_coeff]
    have hterm : ∀ k ∈ Finset.range (n+1),
        (Polynomial.C (w k) * Polynomial.X ^ k).coeff j = if j = k then w k else 0 := by
      intro k _
      rw [Polynomial.coeff_C_mul, Polynomial.coeff_X_pow]
      by_cases hkj : j = k <;> simp [hkj]
    rw [Finset.sum_congr rfl hterm, Finset.sum_ite_eq]
    simp [Nat.lt_succ_iff, hj]
  have hP : (Finset.sum (Finset.range (n+1))
        (fun k => Polynomial.C (u k) * Polynomial.X ^ k) : Polynomial ℚ)
      = Finset.sum (Finset.range (n+1)) (fun k => Polynomial.C (v k) * Polynomial.X ^ k) := by
    apply Polynomial.funext
    intro r
    rw [Polynomial.eval_finset_sum, Polynomial.eval_finset_sum]
    simpa using h r
  calc u j = (Finset.sum (Finset.range (n+1))
        (fun k => Polynomial.C (u k) * Polynomial.X ^ k)).coeff j := (hcoeff u).symm
    _ = (Finset.sum (Finset.range (n+1))
        (fun k => Polynomial.C (v k) * Polynomial.X ^ k)).coeff j := by rw [hP]
    _ = v j := hcoeff v

/-- Claim C9: in exact arithmetic the Horner deflation of `mps_fshift`
with `m = n` computes the coefficients of `p(x+g)`, and applying it
again with shift `-g` recovers every original coefficient
`a 0 .. a n`. -/
theorem mps_fshift_roundtrip (n : ℕ) (a : ℕ → ℚ) (g : ℚ) (j : ℕ) (hj : j ≤ n) :
    mps_fshift_coeffs ℚ n n (mps_fshift_coeffs ℚ n n a g) (-g) j = a j := by
  refine coeff_eq_of_eval_eq n _ a ?_ j hj
  intro x
  have h2 := mps_fshift_coeffs_eval (K := ℚ) n a g x
  have h1 := mps_fshift_coeffs_eval (K := ℚ) n (mps_fshift_coeffs ℚ n n a g) (-g) (x - g)
  rw [show x - g - -g = x from by ring] at h1
  exact h1.trans h2

/-- Witness for `mps_fshift_roundtrip`: `p(x) = x² - 5x + 6`, `g = 10`,
coefficient index 1; the middle conjunct checks the embedding against
the hand expansion `p(x+10) = x² + 15x + 56`. -/
theorem mps_fshift_roundtrip_witness :
    (1 ≤ 2) ∧
    mps_fshift_coeffs ℚ 2 2 (fun k => ([6, -5, 1] : List ℚ).getD k 0) 10 0 = 56 ∧
    mps_fshift_coeffs ℚ 2 2
      (mps_fshift_coeffs ℚ 2 2 (fun k => ([6, -5, 1] : List ℚ).getD k 0) 10) (-10) 1
      = (fun k => ([6, -5, 1] : List ℚ).getD k 0) 1 :=
  ⟨by decide,
    by norm_num [mps_fshift_coeffs, fshiftOuter, hornerDownN, Function.update_apply],
    mps_fshift_roundtrip 2 (fun k => ([6, -5, 1] : List ℚ).getD k 0) 10 1 (by decide)⟩
